import Mathlib

/-!
Shallow embedding of `simulate_battery_soh` from
`src/battery_degradation_app.py`, together with proofs of the
specification's claims about it.  Python floats are modelled by real
numbers and `np.exp` by `Real.exp`.
-/

/-- Temperature acceleration factor `np.exp((avg_temp - 25) / 15)` from
line 63 of the source. -/
noncomputable def temp_factor (avg_temp : ℝ) : ℝ :=
  Real.exp ((avg_temp - 25) / 15)

/-- The per-day degradation `degrade = cycle_deg * temp_factor + cal_deg`
computed in the loop body (lines 52, 58-66 of the source):
`cycle_deg = (charge_cycles_per_week / 7) * 0.005 * (depth_of_discharge / 100)
* habit_factor`, `cal_deg = 0.00005 * calendar_aging_factor`.  Every factor is
independent of the day index and of the current SoH, so the loop recomputes
this same constant each iteration; it is hoisted into one definition here. -/
noncomputable def degrade_amount (charge_cycles_per_week avg_temp habit_factor
    depth_of_discharge calendar_aging_factor : ℝ) : ℝ :=
  charge_cycles_per_week / 7 * 0.005 * (depth_of_discharge / 100) * habit_factor *
    temp_factor avg_temp + 0.00005 * calendar_aging_factor

/-- One entry of the threshold update from lines 70-72 of the source:
record `day / 365` exactly when `SoH[-2] >= t > next_soh` and no crossing for
`t` has been recorded yet (`thresholds[t] is None`). -/
noncomputable def updateThreshold (t prev next_soh : ℝ) (day : ℕ)
    (cur : Option ℝ) : Option ℝ :=
  if prev ≥ t ∧ t > next_soh ∧ cur = none then some ((day : ℝ) / 365) else cur

/-- State produced by the simulation loop: the appended day indices, the
appended SoH values, and the two entries of the `thresholds` dict
(`{80: th80, 60: th60}`). -/
structure LoopResult where
  times : List ℕ
  SoH : List ℝ
  th80 : Option ℝ
  th60 : Option ℝ

/-- The `for day in range(1, days + 1)` loop of `simulate_battery_soh`
(lines 56-74 of the source): `rem` is the number of remaining iterations,
`day` the next day index and `prev` the last stored SoH value (`SoH[-1]`).
Each iteration appends `max(next_soh, 0)` and `day`, updates both threshold
entries with the unclamped `next_soh`, and stops early when
`next_soh <= 0`. -/
noncomputable def simLoop (degrade : ℝ) :
    ℕ → ℕ → ℝ → Option ℝ → Option ℝ → LoopResult
  | 0, _, _, th80, th60 => ⟨[], [], th80, th60⟩
  | rem + 1, day, prev, th80, th60 =>
    let next_soh := prev - degrade
    let th80n := updateThreshold 80 prev next_soh day th80
    let th60n := updateThreshold 60 prev next_soh day th60
    if next_soh ≤ 0 then ⟨[day], [max next_soh 0], th80n, th60n⟩
    else
      let r := simLoop degrade rem (day + 1) (max next_soh 0) th80n th60n
      ⟨day :: r.times, max next_soh 0 :: r.SoH, r.th80, r.th60⟩

/-- Result of a whole simulation run: `times`, `SoH`, the derived `capacity`
list and the two threshold entries. -/
structure SimResult where
  times : List ℕ
  SoH : List ℝ
  capacity : List ℝ
  th80 : Option ℝ
  th60 : Option ℝ

/-- `simulate_battery_soh` (lines 43-76 of the source): seed
`SoH = [100.0]`, `times = [0]`, run the day loop, then derive
`capacity = [init_capacity * s / 100 for s in SoH]`.  The returned
`thresholds` dict `{80: ..., 60: ...}` is the pair of option fields. -/
noncomputable def simulate_battery_soh (days : ℕ)
    (charge_cycles_per_week avg_temp habit_factor depth_of_discharge
      calendar_aging_factor init_capacity : ℝ) : SimResult :=
  let degrade := degrade_amount charge_cycles_per_week avg_temp habit_factor
    depth_of_discharge calendar_aging_factor
  let r := simLoop degrade days 1 100 none none
  ⟨0 :: r.times, 100 :: r.SoH,
    (100 :: r.SoH).map (fun s => init_capacity * s / 100), r.th80, r.th60⟩

/-- The four values of the `habit_factor` mapping (lines 35-40 of the
source): Full = 1.0, Partial = 0.6, Fast = 1.2, Slow = 0.8. -/
def ValidHabit (h : ℝ) : Prop := h = 1.0 ∨ h = 0.6 ∨ h = 1.2 ∨ h = 0.8

/-- Closed-form value of the SoH sequence, following the claim's wording:
day `i` holds `max(100 - i * d, 0)` for the constant per-day degradation
`d`. -/
noncomputable def closed_form_soh (degrade : ℝ) (i : ℕ) : ℝ :=
  max (100 - (i : ℝ) * degrade) 0

/-- Step `k` (0-based) of the loop actually runs: there is fuel left and no
earlier iteration hit `next_soh <= 0`. -/
def stepExecuted (d prev : ℝ) (rem k : ℕ) : Prop :=
  k < rem ∧ ∀ i : ℕ, 1 ≤ i → i ≤ k → 0 < prev - i * d

/-- Projection of the loop onto a single entry of the `thresholds` dict:
the same iteration structure as `simLoop`, carrying only the crossing record
for threshold `tval`.  A proof device, not part of the embedding itself. -/
noncomputable def trackThreshold (d tval : ℝ) : ℕ → ℕ → ℝ → Option ℝ → Option ℝ
  | 0, _, _, cur => cur
  | rem + 1, day, prev, cur =>
    let next_soh := prev - d
    let curn := updateThreshold tval prev next_soh day cur
    if next_soh ≤ 0 then curn
    else trackThreshold d tval rem (day + 1) (max next_soh 0) curn

/-- Specification-side description of a recorded threshold crossing, written
from the claim's wording: the recorded year is d/365 for a day d whose
previous stored SoH was at least the threshold, whose newly computed SoH
(previous value minus the constant per-day degradation) is strictly below
it, and such that no earlier day satisfied that crossing condition. -/
def firstCrossingSpec (soh : List ℝ) (deg tval y : ℝ) : Prop :=
  ∃ d : ℕ, 1 ≤ d ∧ d < soh.length ∧ y = (d : ℝ) / 365 ∧
    tval ≤ soh.getD (d - 1) 0 ∧ soh.getD (d - 1) 0 - deg < tval ∧
    ∀ j : ℕ, 1 ≤ j → j < d →
      ¬(tval ≤ soh.getD (j - 1) 0 ∧ soh.getD (j - 1) 0 - deg < tval)

theorem simulate_SoH_def (days : ℕ) (c t h dod caf cap : ℝ) :
    (simulate_battery_soh days c t h dod caf cap).SoH =
      100 :: (simLoop (degrade_amount c t h dod caf) days 1 100 none none).SoH := rfl

theorem simulate_times_def (days : ℕ) (c t h dod caf cap : ℝ) :
    (simulate_battery_soh days c t h dod caf cap).times =
      0 :: (simLoop (degrade_amount c t h dod caf) days 1 100 none none).times := rfl

theorem simulate_capacity_def (days : ℕ) (c t h dod caf cap : ℝ) :
    (simulate_battery_soh days c t h dod caf cap).capacity =
      (simulate_battery_soh days c t h dod caf cap).SoH.map
        (fun s => cap * s / 100) := rfl

theorem simulate_th80_def (days : ℕ) (c t h dod caf cap : ℝ) :
    (simulate_battery_soh days c t h dod caf cap).th80 =
      (simLoop (degrade_amount c t h dod caf) days 1 100 none none).th80 := rfl

theorem simulate_th60_def (days : ℕ) (c t h dod caf cap : ℝ) :
    (simulate_battery_soh days c t h dod caf cap).th60 =
      (simLoop (degrade_amount c t h dod caf) days 1 100 none none).th60 := rfl

theorem temp_factor_pos (t : ℝ) : 0 < temp_factor t := Real.exp_pos _

theorem habit_pos {h : ℝ} (hv : ValidHabit h) : 0 < h := by
  rcases hv with h1 | h1 | h1 | h1 <;> rw [h1] <;> norm_num

theorem degrade_amount_nonneg (c t h dod caf : ℝ) (hc : 0 ≤ c) (hh : 0 ≤ h)
    (hd : 0 ≤ dod) (hf : 0 ≤ caf) : 0 ≤ degrade_amount c t h dod caf := by
  have h1 : 0 ≤ c / 7 * 0.005 * (dod / 100) * h :=
    mul_nonneg (mul_nonneg (mul_nonneg (by positivity) (by norm_num))
      (by positivity)) hh
  have h2 : 0 ≤ c / 7 * 0.005 * (dod / 100) * h * temp_factor t :=
    mul_nonneg h1 (temp_factor_pos t).le
  have h3 : 0 ≤ (0.00005 : ℝ) * caf := by positivity
  unfold degrade_amount
  linarith

theorem simLoop_len_char (d : ℝ) :
    ∀ (rem day : ℕ) (prev : ℝ) (a b : Option ℝ) (k : ℕ),
      k < (simLoop d rem day prev a b).SoH.length ↔ stepExecuted d prev rem k := by
  intro rem
  induction rem with
  | zero =>
    intro day prev a b k
    simp [simLoop, stepExecuted]
  | succ rem ih =>
    intro day prev a b k
    by_cases hb : prev - d ≤ 0
    · simp only [simLoop]
      rw [if_pos hb]
      constructor
      · intro hk
        have hk0 : k = 0 := by simpa using hk
        subst hk0
        exact ⟨Nat.succ_pos rem, fun i h1 h2 => absurd (h1.trans h2) (by omega)⟩
      · rintro ⟨hk, hrun⟩
        have hk0 : k = 0 := by
          by_contra hne
          have h1 : 1 ≤ k := Nat.one_le_iff_ne_zero.mpr hne
          have h2 := hrun 1 le_rfl h1
          rw [Nat.cast_one, one_mul] at h2
          linarith
        subst hk0
        simp
    · have hpos : 0 < prev - d := by linarith
      have hmax : max (prev - d) 0 = prev - d := max_eq_left hpos.le
      simp only [simLoop]
      rw [if_neg hb]
      simp only [List.length_cons]
      rw [hmax]
      cases k with
      | zero =>
        constructor
        · intro _
          exact ⟨Nat.succ_pos rem, fun i h1 h2 => absurd (h1.trans h2) (by omega)⟩
        · intro _
          exact Nat.succ_pos _
      | succ k =>
        rw [Nat.succ_lt_succ_iff, ih]
        unfold stepExecuted
        constructor
        · rintro ⟨hk, hrun⟩
          refine ⟨Nat.succ_lt_succ hk, ?_⟩
          intro i h1 h2
          obtain ⟨j, rfl⟩ : ∃ j, i = j + 1 := ⟨i - 1, by omega⟩
          cases j with
          | zero =>
            norm_num
            linarith
          | succ m =>
            have hj := hrun (m + 1) (by omega) (by omega)
            push_cast at hj ⊢
            have e : prev - ((m : ℝ) + 1 + 1) * d = prev - d - ((m : ℝ) + 1) * d := by
              ring
            rw [e]
            exact hj
        · rintro ⟨hk, hrun⟩
          refine ⟨Nat.lt_of_succ_lt_succ hk, ?_⟩
          intro i h1 h2
          have h3 := hrun (i + 1) (by omega) (by omega)
          push_cast at h3
          have e : prev - ((i : ℝ) + 1) * d = prev - d - (i : ℝ) * d := by ring
          rw [e] at h3
          exact h3

theorem simLoop_len_le (d : ℝ) (rem day : ℕ) (prev : ℝ) (a b : Option ℝ) :
    (simLoop d rem day prev a b).SoH.length ≤ rem := by
  by_contra hlt
  push_neg at hlt
  exact absurd ((simLoop_len_char d rem day prev a b rem).mp hlt).1 (lt_irrefl rem)

theorem simLoop_len_pos (d : ℝ) (rem day : ℕ) (prev : ℝ) (a b : Option ℝ)
    (h : 1 ≤ rem) : 1 ≤ (simLoop d rem day prev a b).SoH.length :=
  (simLoop_len_char d rem day prev a b 0).mpr
    ⟨h, fun i h1 h2 => absurd (h1.trans h2) (by omega)⟩

theorem simLoop_len_eq (d : ℝ) (rem day : ℕ) (prev : ℝ) (a b : Option ℝ)
    (hpos : ∀ i : ℕ, 1 ≤ i → i ≤ rem → 0 < prev - i * d) :
    (simLoop d rem day prev a b).SoH.length = rem := by
  refine le_antisymm (simLoop_len_le d rem day prev a b) ?_
  cases rem with
  | zero => exact Nat.zero_le _
  | succ n =>
    have hn : n < (simLoop d (n + 1) day prev a b).SoH.length :=
      (simLoop_len_char d (n + 1) day prev a b n).mpr
        ⟨Nat.lt_succ_self n, fun i h1 h2 => hpos i h1 (h2.trans (Nat.le_succ n))⟩
    omega

theorem simLoop_len_le_of_nonpos (d : ℝ) (rem day : ℕ) (prev : ℝ) (a b : Option ℝ)
    (j : ℕ) (h1 : 1 ≤ j) (hj : prev - j * d ≤ 0) :
    (simLoop d rem day prev a b).SoH.length ≤ j := by
  by_contra hlt
  push_neg at hlt
  have h2 := ((simLoop_len_char d rem day prev a b j).mp hlt).2 j h1 le_rfl
  linarith

theorem simLoop_le_len (d : ℝ) (rem day : ℕ) (prev : ℝ) (a b : Option ℝ)
    (j : ℕ) (hrem : j ≤ rem)
    (hmin : ∀ i : ℕ, 1 ≤ i → i < j → 0 < prev - i * d) :
    j ≤ (simLoop d rem day prev a b).SoH.length := by
  cases j with
  | zero => exact Nat.zero_le _
  | succ n =>
    have hn : n < (simLoop d rem day prev a b).SoH.length :=
      (simLoop_len_char d rem day prev a b n).mpr
        ⟨by omega, fun i h1 h2 => hmin i h1 (by omega)⟩
    omega

theorem simLoop_len_mono (d1 d2 : ℝ) (hd : d1 ≤ d2) (rem day1 day2 : ℕ)
    (prev : ℝ) (a1 b1 a2 b2 : Option ℝ) :
    (simLoop d2 rem day2 prev a2 b2).SoH.length ≤
      (simLoop d1 rem day1 prev a1 b1).SoH.length := by
  by_contra hlt
  push_neg at hlt
  set L := (simLoop d1 rem day1 prev a1 b1).SoH.length with hL
  obtain ⟨hrem, hrun⟩ := (simLoop_len_char d2 rem day2 prev a2 b2 L).mp hlt
  have hLL : L < L := by
    conv_rhs => rw [hL]
    refine (simLoop_len_char d1 rem day1 prev a1 b1 L).mpr ⟨hrem, ?_⟩
    intro i h1 h2
    have h3 := hrun i h1 h2
    have h4 : (i : ℝ) * d1 ≤ (i : ℝ) * d2 :=
      mul_le_mul_of_nonneg_left hd (Nat.cast_nonneg i)
    linarith
  exact absurd hLL (lt_irrefl L)

theorem simLoop_times_eq (d : ℝ) :
    ∀ (rem day : ℕ) (prev : ℝ) (a b : Option ℝ),
      (simLoop d rem day prev a b).times =
        List.range' day (simLoop d rem day prev a b).SoH.length := by
  intro rem
  induction rem with
  | zero => intro day prev a b; simp [simLoop]
  | succ rem ih =>
    intro day prev a b
    by_cases hb : prev - d ≤ 0
    · simp only [simLoop]
      rw [if_pos hb]
      simp [List.range'_succ]
    · simp only [simLoop]
      rw [if_neg hb]
      simp only [List.length_cons, List.range'_succ]
      rw [ih]

theorem simLoop_SoH_getD (d : ℝ) :
    ∀ (rem day : ℕ) (prev : ℝ) (a b : Option ℝ) (k : ℕ),
      k < (simLoop d rem day prev a b).SoH.length →
        (simLoop d rem day prev a b).SoH.getD k 0 =
          max (prev - ((k : ℝ) + 1) * d) 0 := by
  intro rem
  induction rem with
  | zero => intro day prev a b k hk; simp [simLoop] at hk
  | succ rem ih =>
    intro day prev a b k hk
    by_cases hb : prev - d ≤ 0
    · simp only [simLoop] at hk ⊢
      rw [if_pos hb] at hk ⊢
      have hk0 : k = 0 := by simpa using hk
      subst hk0
      norm_num
    · have hpos : 0 < prev - d := by linarith
      have hmax : max (prev - d) 0 = prev - d := max_eq_left hpos.le
      simp only [simLoop] at hk ⊢
      rw [if_neg hb] at hk ⊢
      cases k with
      | zero => norm_num
      | succ k =>
        simp only [List.getD_cons_succ, List.length_cons] at hk ⊢
        rw [hmax] at hk ⊢
        rw [ih (day + 1) (prev - d) _ _ k (by omega)]
        congr 1
        push_cast
        ring

theorem simLoop_th80_eq_track (d : ℝ) :
    ∀ (rem day : ℕ) (prev : ℝ) (a b : Option ℝ),
      (simLoop d rem day prev a b).th80 = trackThreshold d 80 rem day prev a := by
  intro rem
  induction rem with
  | zero => intro day prev a b; simp [simLoop, trackThreshold]
  | succ rem ih =>
    intro day prev a b
    simp only [simLoop, trackThreshold]
    by_cases hb : prev - d ≤ 0
    · rw [if_pos hb, if_pos hb]
    · rw [if_neg hb, if_neg hb]
      exact ih (day + 1) (max (prev - d) 0)
        (updateThreshold 80 prev (prev - d) day a)
        (updateThreshold 60 prev (prev - d) day b)

theorem simLoop_th60_eq_track (d : ℝ) :
    ∀ (rem day : ℕ) (prev : ℝ) (a b : Option ℝ),
      (simLoop d rem day prev a b).th60 = trackThreshold d 60 rem day prev b := by
  intro rem
  induction rem with
  | zero => intro day prev a b; simp [simLoop, trackThreshold]
  | succ rem ih =>
    intro day prev a b
    simp only [simLoop, trackThreshold]
    by_cases hb : prev - d ≤ 0
    · rw [if_pos hb, if_pos hb]
    · rw [if_neg hb, if_neg hb]
      exact ih (day + 1) (max (prev - d) 0)
        (updateThreshold 80 prev (prev - d) day a)
        (updateThreshold 60 prev (prev - d) day b)

theorem trackThreshold_frozen (d tval : ℝ) :
    ∀ (rem day : ℕ) (prev : ℝ) (y : ℝ),
      trackThreshold d tval rem day prev (some y) = some y := by
  intro rem
  induction rem with
  | zero => intro day prev y; simp [trackThreshold]
  | succ rem ih =>
    intro day prev y
    have hupd : updateThreshold tval prev (prev - d) day (some y) = some y := by
      simp [updateThreshold]
    simp only [trackThreshold]
    rw [hupd]
    by_cases hb : prev - d ≤ 0
    · rw [if_pos hb]
    · rw [if_neg hb]
      exact ih (day + 1) (max (prev - d) 0) y

theorem trackThreshold_none_iff (d tval : ℝ) :
    ∀ (rem day : ℕ) (prev : ℝ),
      trackThreshold d tval rem day prev none = none ↔
        ∀ k : ℕ, stepExecuted d prev rem k →
          ¬(tval ≤ prev - k * d ∧ prev - ((k : ℝ) + 1) * d < tval) := by
  intro rem
  induction rem with
  | zero =>
    intro day prev
    simp [trackThreshold, stepExecuted]
  | succ rem ih =>
    intro day prev
    by_cases hc : prev ≥ tval ∧ tval > prev - d
    · have hupd : updateThreshold tval prev (prev - d) day none =
          some ((day : ℝ) / 365) := by
        unfold updateThreshold
        rw [if_pos ⟨hc.1, hc.2, rfl⟩]
      have hres : trackThreshold d tval (rem + 1) day prev none =
          some ((day : ℝ) / 365) := by
        simp only [trackThreshold]
        rw [hupd]
        by_cases hb : prev - d ≤ 0
        · rw [if_pos hb]
        · rw [if_neg hb]
          exact trackThreshold_frozen d tval rem (day + 1) (max (prev - d) 0) _
      rw [hres]
      constructor
      · intro hfalse
        exact absurd hfalse (by simp)
      · intro hall
        exfalso
        refine (hall 0 ⟨Nat.succ_pos rem,
          fun i h1 h2 => absurd (h1.trans h2) (by omega)⟩) ?_
        exact ⟨by simpa using hc.1, by simpa using hc.2⟩
    · have hupd : updateThreshold tval prev (prev - d) day none = none := by
        have hncon : ¬(prev ≥ tval ∧ tval > prev - d ∧ (none : Option ℝ) = none) := by
          intro hcon
          exact hc ⟨hcon.1, hcon.2.1⟩
        unfold updateThreshold
        rw [if_neg hncon]
      simp only [trackThreshold]
      rw [hupd]
      by_cases hb : prev - d ≤ 0
      · rw [if_pos hb]
        constructor
        · intro _ k hk
          obtain ⟨hk1, hrun⟩ := hk
          have hk0 : k = 0 := by
            by_contra hne
            have h1 : 1 ≤ k := Nat.one_le_iff_ne_zero.mpr hne
            have h2 := hrun 1 le_rfl h1
            rw [Nat.cast_one, one_mul] at h2
            linarith
          subst hk0
          intro hcon
          exact hc ⟨by simpa using hcon.1, by simpa using hcon.2⟩
        · intro _
          rfl
      · rw [if_neg hb]
        have hpos : 0 < prev - d := by linarith
        have hmax : max (prev - d) 0 = prev - d := max_eq_left hpos.le
        rw [hmax, ih (day + 1) (prev - d)]
        constructor
        · intro hall k hk
          obtain ⟨hk1, hrun⟩ := hk
          cases k with
          | zero =>
            intro hcon
            exact hc ⟨by simpa using hcon.1, by simpa using hcon.2⟩
          | succ m =>
            have hm : stepExecuted d (prev - d) rem m := by
              refine ⟨by omega, ?_⟩
              intro i h1 h2
              have h3 := hrun (i + 1) (by omega) (by omega)
              push_cast at h3
              have e : prev - ((i : ℝ) + 1) * d = prev - d - (i : ℝ) * d := by ring
              rw [e] at h3
              exact h3
            have h4 := hall m hm
            intro hcon
            apply h4
            constructor
            · have h5 := hcon.1
              push_cast at h5
              have e : prev - ((m : ℝ) + 1) * d = prev - d - (m : ℝ) * d := by ring
              rw [e] at h5
              exact h5
            · have h5 := hcon.2
              push_cast at h5
              have e : prev - ((m : ℝ) + 1 + 1) * d =
                  prev - d - ((m : ℝ) + 1) * d := by ring
              rw [e] at h5
              exact h5
        · intro hall k hk
          obtain ⟨hk1, hrun⟩ := hk
          have hk2 : stepExecuted d prev (rem + 1) (k + 1) := by
            refine ⟨by omega, ?_⟩
            intro i h1 h2
            obtain ⟨j, rfl⟩ : ∃ j, i = j + 1 := ⟨i - 1, by omega⟩
            cases j with
            | zero =>
              norm_num
              linarith
            | succ m =>
              have h3 := hrun (m + 1) (by omega) (by omega)
              push_cast at h3 ⊢
              have e : prev - ((m : ℝ) + 1 + 1) * d =
                  prev - d - ((m : ℝ) + 1) * d := by ring
              rw [e]
              exact h3
          have h4 := hall (k + 1) hk2
          intro hcon
          apply h4
          push_cast
          constructor
          · have h5 := hcon.1
            have e : prev - ((k : ℝ) + 1) * d = prev - d - (k : ℝ) * d := by ring
            rw [e]
            exact h5
          · have h5 := hcon.2
            have e : prev - ((k : ℝ) + 1 + 1) * d =
                prev - d - ((k : ℝ) + 1) * d := by ring
            rw [e]
            exact h5

theorem trackThreshold_some_spec (d tval : ℝ) :
    ∀ (rem day : ℕ) (prev : ℝ) (y : ℝ),
      trackThreshold d tval rem day prev none = some y →
        ∃ k : ℕ, stepExecuted d prev rem k ∧ y = ((day + k : ℕ) : ℝ) / 365 ∧
          tval ≤ prev - k * d ∧ prev - ((k : ℝ) + 1) * d < tval ∧
          ∀ j : ℕ, j < k →
            ¬(tval ≤ prev - j * d ∧ prev - ((j : ℝ) + 1) * d < tval) := by
  intro rem
  induction rem with
  | zero => intro day prev y h; simp [trackThreshold] at h
  | succ rem ih =>
    intro day prev y h
    by_cases hc : prev ≥ tval ∧ tval > prev - d
    · have hupd : updateThreshold tval prev (prev - d) day none =
          some ((day : ℝ) / 365) := by
        unfold updateThreshold
        rw [if_pos ⟨hc.1, hc.2, rfl⟩]
      have hres : trackThreshold d tval (rem + 1) day prev none =
          some ((day : ℝ) / 365) := by
        simp only [trackThreshold]
        rw [hupd]
        by_cases hb : prev - d ≤ 0
        · rw [if_pos hb]
        · rw [if_neg hb]
          exact trackThreshold_frozen d tval rem (day + 1) (max (prev - d) 0) _
      rw [hres] at h
      have hy := Option.some.inj h
      refine ⟨0, ⟨Nat.succ_pos rem,
        fun i h1 h2 => absurd (h1.trans h2) (by omega)⟩, ?_, ?_, ?_, ?_⟩
      · rw [← hy]
        norm_num
      · simpa using hc.1
      · simpa using hc.2
      · intro j hj
        exact absurd hj (Nat.not_lt_zero j)
    · have hupd : updateThreshold tval prev (prev - d) day none = none := by
        have hncon : ¬(prev ≥ tval ∧ tval > prev - d ∧ (none : Option ℝ) = none) := by
          intro hcon
          exact hc ⟨hcon.1, hcon.2.1⟩
        unfold updateThreshold
        rw [if_neg hncon]
      simp only [trackThreshold] at h
      rw [hupd] at h
      by_cases hb : prev - d ≤ 0
      · rw [if_pos hb] at h
        exact absurd h (by simp)
      · rw [if_neg hb] at h
        have hpos : 0 < prev - d := by linarith
        have hmax : max (prev - d) 0 = prev - d := max_eq_left hpos.le
        rw [hmax] at h
        obtain ⟨k, hexec, hy, hcond1, hcond2, hmin⟩ := ih (day + 1) (prev - d) y h
        obtain ⟨hk1, hrun⟩ := hexec
        refine ⟨k + 1, ?_, ?_, ?_, ?_, ?_⟩
        · refine ⟨by omega, ?_⟩
          intro i h1 h2
          obtain ⟨j, rfl⟩ : ∃ j, i = j + 1 := ⟨i - 1, by omega⟩
          cases j with
          | zero =>
            norm_num
            linarith
          | succ m =>
            have h3 := hrun (m + 1) (by omega) (by omega)
            push_cast at h3 ⊢
            have e : prev - ((m : ℝ) + 1 + 1) * d =
                prev - d - ((m : ℝ) + 1) * d := by ring
            rw [e]
            exact h3
        · rw [hy]
          have e : day + 1 + k = day + (k + 1) := by omega
          rw [e]
        · push_cast
          have e : prev - ((k : ℝ) + 1) * d = prev - d - (k : ℝ) * d := by ring
          rw [e]
          exact_mod_cast hcond1
        · push_cast
          have e : prev - ((k : ℝ) + 1 + 1) * d =
              prev - d - ((k : ℝ) + 1) * d := by ring
          rw [e]
          exact hcond2
        · intro j hj
          cases j with
          | zero =>
            intro hcon
            exact hc ⟨by simpa using hcon.1, by simpa using hcon.2⟩
          | succ m =>
            have h4 := hmin m (by omega)
            intro hcon
            apply h4
            constructor
            · have h5 := hcon.1
              push_cast at h5
              have e : prev - ((m : ℝ) + 1) * d = prev - d - (m : ℝ) * d := by ring
              rw [e] at h5
              exact_mod_cast h5
            · have h5 := hcon.2
              push_cast at h5
              have e : prev - ((m : ℝ) + 1 + 1) * d =
                  prev - d - ((m : ℝ) + 1) * d := by ring
              rw [e] at h5
              exact h5

theorem trackThreshold_eq_some (d tval : ℝ) (rem day : ℕ) (prev : ℝ) (k : ℕ)
    (hexec : stepExecuted d prev rem k)
    (h1 : tval ≤ prev - k * d) (h2 : prev - ((k : ℝ) + 1) * d < tval)
    (hmin : ∀ j : ℕ, j < k →
      ¬(tval ≤ prev - j * d ∧ prev - ((j : ℝ) + 1) * d < tval)) :
    trackThreshold d tval rem day prev none = some (((day + k : ℕ) : ℝ) / 365) := by
  have hne : trackThreshold d tval rem day prev none ≠ none := by
    intro hn
    exact ((trackThreshold_none_iff d tval rem day prev).mp hn k hexec) ⟨h1, h2⟩
  obtain ⟨y, hy⟩ := Option.ne_none_iff_exists'.mp hne
  obtain ⟨k2, hexec2, hy2, hc1, hc2, hmin2⟩ :=
    trackThreshold_some_spec d tval rem day prev y hy
  have hkk : k2 = k := by
    rcases lt_trichotomy k2 k with hlt | heq | hgt
    · exact absurd ⟨hc1, hc2⟩ (hmin k2 hlt)
    · exact heq
    · exact absurd ⟨h1, h2⟩ (hmin2 k hgt)
  rw [hy, hy2, hkk]

theorem simulate_SoH_length (days : ℕ) (c t h dod caf cap : ℝ) :
    (simulate_battery_soh days c t h dod caf cap).SoH.length =
      (simLoop (degrade_amount c t h dod caf) days 1 100 none none).SoH.length + 1 := by
  rw [simulate_SoH_def]
  simp

theorem simulate_SoH_getD (days : ℕ) (c t h dod caf cap : ℝ) (i : ℕ)
    (hi : i < (simulate_battery_soh days c t h dod caf cap).SoH.length) :
    (simulate_battery_soh days c t h dod caf cap).SoH.getD i 0 =
      max (100 - (i : ℝ) * degrade_amount c t h dod caf) 0 := by
  rw [simulate_SoH_def] at hi ⊢
  cases i with
  | zero => norm_num
  | succ k =>
    simp only [List.getD_cons_succ, List.length_cons] at hi ⊢
    rw [simLoop_SoH_getD (degrade_amount c t h dod caf) days 1 100 none none k
      (by omega)]
    congr 1
    push_cast
    ring

theorem le_max_arg {a tv : ℝ} (h0 : 0 < tv) (h : tv ≤ max a 0) : tv ≤ a := by
  rcases le_max_iff.mp h with h1 | h1
  · exact h1
  · linarith

theorem max_lt_arg {a tv : ℝ} (h : max a 0 < tv) : a < tv :=
  lt_of_le_of_lt (le_max_left a 0) h

theorem getD_map_of_lt {α β : Type} (f : α → β) (l : List α) (i : ℕ) (b : β)
    (a : α) (hi : i < l.length) : (l.map f).getD i b = f (l.getD i a) := by
  induction l generalizing i with
  | nil => simp at hi
  | cons x xs ih =>
    cases i with
    | zero => simp
    | succ n =>
      simp only [List.map_cons, List.getD_cons_succ]
      exact ih n (by simpa using hi)

theorem range'_getD (s n i : ℕ) (h : i < n) : (List.range' s n).getD i 0 = s + i := by
  induction n generalizing s i with
  | zero => omega
  | succ m ih =>
    rw [List.range'_succ]
    cases i with
    | zero => simp
    | succ j =>
      simp only [List.getD_cons_succ]
      rw [ih (s + 1) j (by omega)]
      omega

theorem degrade_amount_ex1 : degrade_amount 7 25 1 80 0.2 = 0.00401 := by
  unfold degrade_amount temp_factor
  rw [show ((25 : ℝ) - 25) / 15 = 0 by norm_num, Real.exp_zero]
  norm_num

theorem degrade_amount_ex2 : degrade_amount 140000 25 1 100 0 = 100 := by
  unfold degrade_amount temp_factor
  rw [show ((25 : ℝ) - 25) / 15 = 0 by norm_num, Real.exp_zero]
  norm_num

theorem degrade_amount_ex3 : degrade_amount 14 25 1 100 0 = 0.01 := by
  unfold degrade_amount temp_factor
  rw [show ((25 : ℝ) - 25) / 15 = 0 by norm_num, Real.exp_zero]
  norm_num

theorem track_none_iff_soh (days : ℕ) (c t h dod caf cap tval : ℝ)
    (htv0 : 0 < tval) (htv100 : tval ≤ 100) :
    trackThreshold (degrade_amount c t h dod caf) tval days 1 100 none = none ↔
      ∀ i : ℕ, i < (simulate_battery_soh days c t h dod caf cap).SoH.length →
        tval ≤ (simulate_battery_soh days c t h dod caf cap).SoH.getD i 0 := by
  set deg := degrade_amount c t h dod caf with hdeg
  constructor
  · intro hn i hi
    by_contra hlt2
    push_neg at hlt2
    classical
    have hex : ∃ m : ℕ, m < (simulate_battery_soh days c t h dod caf cap).SoH.length ∧
        (simulate_battery_soh days c t h dod caf cap).SoH.getD m 0 < tval :=
      ⟨i, hi, hlt2⟩
    obtain ⟨hm1, hm2⟩ := Nat.find_spec hex
    set m := Nat.find hex with hmdef
    have hm0 : m ≠ 0 := by
      intro h0
      rw [h0] at hm2
      rw [simulate_SoH_getD days c t h dod caf cap 0 (by omega)] at hm2
      norm_num at hm2
      linarith
    obtain ⟨k, hk⟩ : ∃ k, m = k + 1 := ⟨m - 1, by omega⟩
    have hklen : k < (simLoop deg days 1 100 none none).SoH.length := by
      have hlen := simulate_SoH_length days c t h dod caf cap
      rw [← hdeg] at hlen
      omega
    have hkfull : k < (simulate_battery_soh days c t h dod caf cap).SoH.length := by
      omega
    have hkge : tval ≤ (simulate_battery_soh days c t h dod caf cap).SoH.getD k 0 := by
      by_contra hklt
      push_neg at hklt
      exact absurd ⟨hkfull, hklt⟩ (Nat.find_min hex (by omega))
    rw [simulate_SoH_getD days c t h dod caf cap k hkfull] at hkge
    rw [simulate_SoH_getD days c t h dod caf cap m hm1, hk] at hm2
    have hcond1 : tval ≤ 100 - (k : ℝ) * deg := le_max_arg htv0 hkge
    have hcond2 : 100 - ((k : ℝ) + 1) * deg < tval := by
      have h5 := max_lt_arg hm2
      push_cast at h5
      linarith
    have hexec : stepExecuted deg 100 days k :=
      (simLoop_len_char deg days 1 100 none none k).mp hklen
    exact ((trackThreshold_none_iff deg tval days 1 100).mp hn k hexec)
      ⟨hcond1, hcond2⟩
  · intro hall
    refine (trackThreshold_none_iff deg tval days 1 100).mpr ?_
    intro k hexec
    have hklen : k < (simLoop deg days 1 100 none none).SoH.length :=
      (simLoop_len_char deg days 1 100 none none k).mpr hexec
    have hkfull : k + 1 < (simulate_battery_soh days c t h dod caf cap).SoH.length := by
      have hlen := simulate_SoH_length days c t h dod caf cap
      rw [← hdeg] at hlen
      omega
    have h5 := hall (k + 1) hkfull
    rw [simulate_SoH_getD days c t h dod caf cap (k + 1) hkfull] at h5
    have h6 : tval ≤ 100 - ((k : ℝ) + 1) * deg := by
      have h7 := le_max_arg htv0 h5
      push_cast at h7
      linarith
    intro hcon
    linarith [hcon.2]

theorem track_eq_some_of_first_below (days : ℕ) (c t h dod caf cap tval : ℝ)
    (htv0 : 0 < tval) (htv100 : tval ≤ 100) (dday : ℕ)
    (hd : dday < (simulate_battery_soh days c t h dod caf cap).SoH.length)
    (hlt : (simulate_battery_soh days c t h dod caf cap).SoH.getD dday 0 < tval)
    (hmin : ∀ j : ℕ, j < dday →
      tval ≤ (simulate_battery_soh days c t h dod caf cap).SoH.getD j 0) :
    trackThreshold (degrade_amount c t h dod caf) tval days 1 100 none =
      some ((dday : ℝ) / 365) := by
  set deg := degrade_amount c t h dod caf with hdeg
  have hd0 : dday ≠ 0 := by
    intro h0
    rw [h0] at hlt
    rw [simulate_SoH_getD days c t h dod caf cap 0 (by omega)] at hlt
    norm_num at hlt
    linarith
  obtain ⟨k, hk⟩ : ∃ k, dday = k + 1 := ⟨dday - 1, by omega⟩
  have hklen : k < (simLoop deg days 1 100 none none).SoH.length := by
    have hlen := simulate_SoH_length days c t h dod caf cap
    rw [← hdeg] at hlen
    omega
  have hkfull : k < (simulate_battery_soh days c t h dod caf cap).SoH.length := by
    omega
  have hexec : stepExecuted deg 100 days k :=
    (simLoop_len_char deg days 1 100 none none k).mp hklen
  have hkge := hmin k (by omega)
  rw [simulate_SoH_getD days c t h dod caf cap k hkfull] at hkge
  have hcond1 : tval ≤ 100 - (k : ℝ) * deg := le_max_arg htv0 hkge
  rw [simulate_SoH_getD days c t h dod caf cap dday hd, hk] at hlt
  have hcond2 : 100 - ((k : ℝ) + 1) * deg < tval := by
    have h5 := max_lt_arg hlt
    push_cast at h5
    linarith
  have hminT : ∀ j : ℕ, j < k →
      ¬(tval ≤ 100 - (j : ℝ) * deg ∧ 100 - ((j : ℝ) + 1) * deg < tval) := by
    intro j hj hcon
    have hjfull : j + 1 < (simulate_battery_soh days c t h dod caf cap).SoH.length := by
      omega
    have h5 := hmin (j + 1) (by omega)
    rw [simulate_SoH_getD days c t h dod caf cap (j + 1) hjfull] at h5
    have h6 := le_max_arg htv0 h5
    push_cast at h6
    linarith [hcon.2]
  have := trackThreshold_eq_some deg tval days 1 100 k hexec
    (by exact_mod_cast hcond1) hcond2
    (by
      intro j hj hcon
      exact hminT j hj ⟨by exact_mod_cast hcon.1, hcon.2⟩)
  rw [this]
  congr 1
  rw [hk]
  push_cast
  ring

/-- C1: for every valid parameter bundle (charge cycles per week ≥ 1, depth
of discharge ≥ 10, habit factor one of the four menu values, calendar aging
factor ≥ 0, any temperature), the returned SoH sequence starts at exactly
100, is monotonically non-increasing, and every element lies in [0, 100]. -/
theorem C1_soh_invariants (days : ℕ) (c t h dod caf cap : ℝ)
    (hc : 1 ≤ c) (hdod : 10 ≤ dod) (hh : ValidHabit h) (hcaf : 0 ≤ caf) :
    (simulate_battery_soh days c t h dod caf cap).SoH.getD 0 0 = 100 ∧
    (∀ i j : ℕ, i ≤ j →
      j < (simulate_battery_soh days c t h dod caf cap).SoH.length →
      (simulate_battery_soh days c t h dod caf cap).SoH.getD j 0 ≤
        (simulate_battery_soh days c t h dod caf cap).SoH.getD i 0) ∧
    ∀ i : ℕ, i < (simulate_battery_soh days c t h dod caf cap).SoH.length →
      0 ≤ (simulate_battery_soh days c t h dod caf cap).SoH.getD i 0 ∧
        (simulate_battery_soh days c t h dod caf cap).SoH.getD i 0 ≤ 100 := by
  have hd : 0 ≤ degrade_amount c t h dod caf :=
    degrade_amount_nonneg c t h dod caf (by linarith) (habit_pos hh).le
      (by linarith) hcaf
  refine ⟨?_, ?_, ?_⟩
  · rw [simulate_SoH_def]
    simp
  · intro i j hij hj
    have hi : i < (simulate_battery_soh days c t h dod caf cap).SoH.length :=
      lt_of_le_of_lt hij hj
    rw [simulate_SoH_getD days c t h dod caf cap j hj,
      simulate_SoH_getD days c t h dod caf cap i hi]
    have hmul : (i : ℝ) * degrade_amount c t h dod caf ≤
        (j : ℝ) * degrade_amount c t h dod caf :=
      mul_le_mul_of_nonneg_right (by exact_mod_cast hij) hd
    exact max_le_max (by linarith) le_rfl
  · intro i hi
    rw [simulate_SoH_getD days c t h dod caf cap i hi]
    constructor
    · exact le_max_right _ _
    · refine max_le ?_ (by norm_num)
      have hmul : 0 ≤ (i : ℝ) * degrade_amount c t h dod caf :=
        mul_nonneg (Nat.cast_nonneg i) hd
      linarith

theorem C1_soh_invariants_witness :
    (simulate_battery_soh 3 7 25 1 80 0.2 4000).SoH.getD 0 0 = 100 ∧
    (∀ i j : ℕ, i ≤ j → j < (simulate_battery_soh 3 7 25 1 80 0.2 4000).SoH.length →
      (simulate_battery_soh 3 7 25 1 80 0.2 4000).SoH.getD j 0 ≤
        (simulate_battery_soh 3 7 25 1 80 0.2 4000).SoH.getD i 0) ∧
    ∀ i : ℕ, i < (simulate_battery_soh 3 7 25 1 80 0.2 4000).SoH.length →
      0 ≤ (simulate_battery_soh 3 7 25 1 80 0.2 4000).SoH.getD i 0 ∧
        (simulate_battery_soh 3 7 25 1 80 0.2 4000).SoH.getD i 0 ≤ 100 :=
  C1_soh_invariants 3 7 25 1 80 0.2 4000 (by norm_num) (by norm_num)
    (Or.inl (by norm_num)) (by norm_num)

/-- C2: the three result sequences have one common length N+1 with
N ≤ horizon_days, `times` is exactly the consecutive integers 0..N, and each
capacity entry is exactly `init_capacity * soh / 100` for the SoH entry at
the same index. -/
theorem C2_result_shape (days : ℕ) (c t h dod caf cap : ℝ) :
    (simulate_battery_soh days c t h dod caf cap).times.length =
      (simulate_battery_soh days c t h dod caf cap).SoH.length ∧
    (simulate_battery_soh days c t h dod caf cap).capacity.length =
      (simulate_battery_soh days c t h dod caf cap).SoH.length ∧
    (simulate_battery_soh days c t h dod caf cap).times =
      List.range' 0 (simulate_battery_soh days c t h dod caf cap).SoH.length ∧
    1 ≤ (simulate_battery_soh days c t h dod caf cap).SoH.length ∧
    (simulate_battery_soh days c t h dod caf cap).SoH.length ≤ days + 1 ∧
    ∀ i : ℕ, i < (simulate_battery_soh days c t h dod caf cap).SoH.length →
      (simulate_battery_soh days c t h dod caf cap).capacity.getD i 0 =
        cap * (simulate_battery_soh days c t h dod caf cap).SoH.getD i 0 / 100 := by
  set deg := degrade_amount c t h dod caf with hdeg
  have hlen := simulate_SoH_length days c t h dod caf cap
  rw [← hdeg] at hlen
  have hLle := simLoop_len_le deg days 1 100 none none
  refine ⟨?_, ?_, ?_, by omega, by omega, ?_⟩
  · rw [simulate_times_def, simulate_SoH_def, ← hdeg,
      simLoop_times_eq deg days 1 100 none none]
    simp
  · rw [simulate_capacity_def]
    simp
  · rw [simulate_times_def, ← hdeg, simLoop_times_eq deg days 1 100 none none,
      hlen, List.range'_succ]
  · intro i hi
    rw [simulate_capacity_def,
      getD_map_of_lt (fun s => cap * s / 100)
        (simulate_battery_soh days c t h dod caf cap).SoH i 0 0 hi]

theorem C2_result_shape_witness :
    (simulate_battery_soh 3 7 25 1 80 0.2 4000).times.length =
      (simulate_battery_soh 3 7 25 1 80 0.2 4000).SoH.length ∧
    (simulate_battery_soh 3 7 25 1 80 0.2 4000).capacity.length =
      (simulate_battery_soh 3 7 25 1 80 0.2 4000).SoH.length ∧
    (simulate_battery_soh 3 7 25 1 80 0.2 4000).times =
      List.range' 0 (simulate_battery_soh 3 7 25 1 80 0.2 4000).SoH.length ∧
    1 ≤ (simulate_battery_soh 3 7 25 1 80 0.2 4000).SoH.length ∧
    (simulate_battery_soh 3 7 25 1 80 0.2 4000).SoH.length ≤ 3 + 1 ∧
    ∀ i : ℕ, i < (simulate_battery_soh 3 7 25 1 80 0.2 4000).SoH.length →
      (simulate_battery_soh 3 7 25 1 80 0.2 4000).capacity.getD i 0 =
        4000 * (simulate_battery_soh 3 7 25 1 80 0.2 4000).SoH.getD i 0 / 100 :=
  C2_result_shape 3 7 25 1 80 0.2 4000

/-- C10: the per-day degradation computed inside the loop is one constant
(independent of the day index and the current SoH), and the stored SoH
sequence coincides at every index with the closed form max(100 - i * d, 0):
the day-stepped recurrence refines the closed-form function up to the
early-termination cutoff. -/
theorem C10_closed_form (days : ℕ) (c t h dod caf cap : ℝ) :
    ∀ i : ℕ, i < (simulate_battery_soh days c t h dod caf cap).SoH.length →
      (simulate_battery_soh days c t h dod caf cap).SoH.getD i 0 =
        closed_form_soh (degrade_amount c t h dod caf) i := by
  intro i hi
  rw [simulate_SoH_getD days c t h dod caf cap i hi]
  rfl

theorem C10_closed_form_witness :
    (simulate_battery_soh 2 7 25 1 80 0.2 4000).SoH.getD 1 0 =
      closed_form_soh (degrade_amount 7 25 1 80 0.2) 1 := by
  refine C10_closed_form 2 7 25 1 80 0.2 4000 1 ?_
  rw [simulate_SoH_length]
  have h1 := simLoop_len_pos (degrade_amount 7 25 1 80 0.2) 2 1 100 none none
    (by norm_num)
  omega

/-- C7: with the example bundle (4000 mAh, 7 cycles/week, 25 °C, habit 1.0,
DoD 80 %, calendar factor 0.2), the per-day degradation is exactly
(7/7)*0.005*(80/100)*1.0*exp(0) + 0.00005*0.2 = 0.00401, and the stored SoH
of day 1 is exactly 100 - 0.00401 = 99.99599. -/
theorem C7_example_day1 :
    degrade_amount 7 25 1 80 0.2 = 0.00401 ∧
    (simulate_battery_soh 365 7 25 1 80 0.2 4000).SoH.getD 1 0 = 99.99599 := by
  refine ⟨degrade_amount_ex1, ?_⟩
  have h1 : 1 < (simulate_battery_soh 365 7 25 1 80 0.2 4000).SoH.length := by
    rw [simulate_SoH_length]
    have h2 := simLoop_len_pos (degrade_amount 7 25 1 80 0.2) 365 1 100 none none
      (by norm_num)
    omega
  rw [simulate_SoH_getD 365 7 25 1 80 0.2 4000 1 h1, degrade_amount_ex1,
    show (100 : ℝ) - ((1 : ℕ) : ℝ) * 0.00401 = 99.99599 by push_cast; norm_num]
  exact max_eq_left (by norm_num)

/-- C5: if day d is the first day whose computed next SoH is ≤ 0 (within the
horizon), the simulation stops there: the result has exactly d+1 entries, its
last entry is day d with SoH exactly 0, and the result is shorter than the
horizon when d < horizon_days. -/
theorem C5_early_termination (days : ℕ) (c t h dod caf cap : ℝ) (d : ℕ)
    (hd1 : 1 ≤ d) (hdle : d ≤ days)
    (hneg : 100 - (d : ℝ) * degrade_amount c t h dod caf ≤ 0)
    (hmin : ∀ j : ℕ, 1 ≤ j → j < d →
      0 < 100 - (j : ℝ) * degrade_amount c t h dod caf) :
    (simulate_battery_soh days c t h dod caf cap).SoH.length = d + 1 ∧
    (simulate_battery_soh days c t h dod caf cap).SoH.getD d 0 = 0 ∧
    (simulate_battery_soh days c t h dod caf cap).times.getD d 0 = d ∧
    (d < days →
      (simulate_battery_soh days c t h dod caf cap).SoH.length < days + 1) := by
  set deg := degrade_amount c t h dod caf with hdeg
  have hlen := simulate_SoH_length days c t h dod caf cap
  rw [← hdeg] at hlen
  have hle : (simLoop deg days 1 100 none none).SoH.length ≤ d :=
    simLoop_len_le_of_nonpos deg days 1 100 none none d hd1 hneg
  have hge : d ≤ (simLoop deg days 1 100 none none).SoH.length :=
    simLoop_le_len deg days 1 100 none none d hdle hmin
  refine ⟨by omega, ?_, ?_, by omega⟩
  · rw [simulate_SoH_getD days c t h dod caf cap d (by omega), ← hdeg]
    exact max_eq_right hneg
  · rw [simulate_times_def, ← hdeg, simLoop_times_eq deg days 1 100 none none,
      show (simLoop deg days 1 100 none none).SoH.length = d by omega]
    cases d with
    | zero => omega
    | succ n =>
      simp only [List.getD_cons_succ]
      rw [range'_getD 1 (n + 1) n (by omega)]
      omega

theorem C5_early_termination_witness :
    (simulate_battery_soh 5 140000 25 1 100 0 4000).SoH.length = 1 + 1 ∧
    (simulate_battery_soh 5 140000 25 1 100 0 4000).SoH.getD 1 0 = 0 ∧
    (simulate_battery_soh 5 140000 25 1 100 0 4000).times.getD 1 0 = 1 ∧
    (1 < 5 → (simulate_battery_soh 5 140000 25 1 100 0 4000).SoH.length < 5 + 1) :=
  C5_early_termination 5 140000 25 1 100 0 4000 1 (by norm_num) (by norm_num)
    (by rw [degrade_amount_ex2]; push_cast; norm_num)
    (fun j h1 h2 => absurd (lt_of_le_of_lt h1 h2) (by omega))

theorem crossing_spec_of_some (days : ℕ) (c t h dod caf cap tval y : ℝ)
    (htv0 : 0 < tval)
    (hsome : trackThreshold (degrade_amount c t h dod caf) tval days 1 100 none =
      some y) :
    firstCrossingSpec (simulate_battery_soh days c t h dod caf cap).SoH
      (degrade_amount c t h dod caf) tval y := by
  set deg := degrade_amount c t h dod caf with hdeg
  obtain ⟨k, hexec, hy, hc1, hc2, hmin⟩ :=
    trackThreshold_some_spec deg tval days 1 100 y hsome
  have hklen : k < (simLoop deg days 1 100 none none).SoH.length :=
    (simLoop_len_char deg days 1 100 none none k).mpr hexec
  have hlen := simulate_SoH_length days c t h dod caf cap
  rw [← hdeg] at hlen
  have hkfull : k < (simulate_battery_soh days c t h dod caf cap).SoH.length := by
    omega
  refine ⟨k + 1, by omega, by omega, ?_, ?_, ?_, ?_⟩
  · rw [hy, show 1 + k = k + 1 by omega]
  · rw [Nat.add_sub_cancel,
      simulate_SoH_getD days c t h dod caf cap k hkfull, ← hdeg]
    exact le_trans hc1 (le_max_left _ _)
  · rw [Nat.add_sub_cancel,
      simulate_SoH_getD days c t h dod caf cap k hkfull, ← hdeg]
    have hup : (0 : ℝ) ≤ 100 - (k : ℝ) * deg := le_trans htv0.le hc1
    rw [max_eq_left hup,
      show 100 - (k : ℝ) * deg - deg = 100 - ((k : ℝ) + 1) * deg by ring]
    exact hc2
  · intro j hj1 hj2 hcon
    have hjlt : j - 1 < k := by omega
    have hjfull : j - 1 < (simulate_battery_soh days c t h dod caf cap).SoH.length := by
      omega
    rw [simulate_SoH_getD days c t h dod caf cap (j - 1) hjfull, ← hdeg] at hcon
    have harg : tval ≤ 100 - ((j - 1 : ℕ) : ℝ) * deg := le_max_arg htv0 hcon.1
    have hup : (0 : ℝ) ≤ 100 - ((j - 1 : ℕ) : ℝ) * deg := le_trans htv0.le harg
    rw [max_eq_left hup] at hcon
    refine hmin (j - 1) hjlt ⟨harg, ?_⟩
    have e : 100 - ((j - 1 : ℕ) : ℝ) * deg - deg =
        100 - (((j - 1 : ℕ) : ℝ) + 1) * deg := by ring
    rw [e] at hcon
    exact hcon.2

/-- C3: any recorded crossing for threshold 80 or 60 is sound: the recorded
value is exactly d/365 for a day d whose previous stored SoH was at least
the threshold, whose newly computed SoH (previous minus the per-day
degradation) is strictly below it, and no earlier day satisfied the
crossing condition; the `Option` result can record at most one crossing per
threshold. -/
theorem C3_crossing_sound (days : ℕ) (c t h dod caf cap : ℝ) :
    (∀ y : ℝ, (simulate_battery_soh days c t h dod caf cap).th80 = some y →
      firstCrossingSpec (simulate_battery_soh days c t h dod caf cap).SoH
        (degrade_amount c t h dod caf) 80 y) ∧
    (∀ y : ℝ, (simulate_battery_soh days c t h dod caf cap).th60 = some y →
      firstCrossingSpec (simulate_battery_soh days c t h dod caf cap).SoH
        (degrade_amount c t h dod caf) 60 y) := by
  constructor
  · intro y hy
    rw [simulate_th80_def, simLoop_th80_eq_track] at hy
    exact crossing_spec_of_some days c t h dod caf cap 80 y (by norm_num) hy
  · intro y hy
    rw [simulate_th60_def, simLoop_th60_eq_track] at hy
    exact crossing_spec_of_some days c t h dod caf cap 60 y (by norm_num) hy

theorem example_run_len :
    (simulate_battery_soh 1 140000 25 1 100 0 4000).SoH.length = 2 := by
  have hLp := simLoop_len_pos (degrade_amount 140000 25 1 100 0) 1 1 100 none none
    (by norm_num)
  have hLl := simLoop_len_le (degrade_amount 140000 25 1 100 0) 1 1 100 none none
  have hlen := simulate_SoH_length 1 140000 25 1 100 0 4000
  omega

theorem example_run_soh1 :
    (simulate_battery_soh 1 140000 25 1 100 0 4000).SoH.getD 1 0 = 0 := by
  rw [simulate_SoH_getD 1 140000 25 1 100 0 4000 1 (by rw [example_run_len]; omega),
    degrade_amount_ex2]
  push_cast
  norm_num

theorem example_run_soh0 :
    (simulate_battery_soh 1 140000 25 1 100 0 4000).SoH.getD 0 0 = 100 := by
  rw [simulate_SoH_getD 1 140000 25 1 100 0 4000 0 (by rw [example_run_len]; omega)]
  norm_num

theorem C3_crossing_sound_witness :
    firstCrossingSpec (simulate_battery_soh 1 140000 25 1 100 0 4000).SoH
      (degrade_amount 140000 25 1 100 0) 80 ((1 : ℝ) / 365) := by
  refine (C3_crossing_sound 1 140000 25 1 100 0 4000).1 ((1 : ℝ) / 365) ?_
  rw [simulate_th80_def, simLoop_th80_eq_track]
  have h1 := track_eq_some_of_first_below 1 140000 25 1 100 0 4000 80 (by norm_num)
    (by norm_num) 1 (by rw [example_run_len]; omega)
    (by rw [example_run_soh1]; norm_num)
    (by
      intro j hj
      have hj0 : j = 0 := by omega
      subst hj0
      rw [example_run_soh0]
      norm_num)
  rw [h1]
  norm_num

/-- C6: for each threshold in {80, 60}, the crossing entry is `none` exactly
when no stored SoH value of any simulated day is strictly below that
threshold. -/
theorem C6_none_iff_never_below (days : ℕ) (c t h dod caf cap : ℝ) :
    ((simulate_battery_soh days c t h dod caf cap).th80 = none ↔
      ∀ i : ℕ, i < (simulate_battery_soh days c t h dod caf cap).SoH.length →
        80 ≤ (simulate_battery_soh days c t h dod caf cap).SoH.getD i 0) ∧
    ((simulate_battery_soh days c t h dod caf cap).th60 = none ↔
      ∀ i : ℕ, i < (simulate_battery_soh days c t h dod caf cap).SoH.length →
        60 ≤ (simulate_battery_soh days c t h dod caf cap).SoH.getD i 0) := by
  constructor
  · rw [simulate_th80_def, simLoop_th80_eq_track]
    exact track_none_iff_soh days c t h dod caf cap 80 (by norm_num) (by norm_num)
  · rw [simulate_th60_def, simLoop_th60_eq_track]
    exact track_none_iff_soh days c t h dod caf cap 60 (by norm_num) (by norm_num)

theorem C6_none_iff_never_below_witness :
    ((simulate_battery_soh 3 7 25 1 80 0.2 4000).th80 = none ↔
      ∀ i : ℕ, i < (simulate_battery_soh 3 7 25 1 80 0.2 4000).SoH.length →
        80 ≤ (simulate_battery_soh 3 7 25 1 80 0.2 4000).SoH.getD i 0) ∧
    ((simulate_battery_soh 3 7 25 1 80 0.2 4000).th60 = none ↔
      ∀ i : ℕ, i < (simulate_battery_soh 3 7 25 1 80 0.2 4000).SoH.length →
        60 ≤ (simulate_battery_soh 3 7 25 1 80 0.2 4000).SoH.getD i 0) :=
  C6_none_iff_never_below 3 7 25 1 80 0.2 4000

/-- C4 (counterexample): with 14 cycles/week, 25 °C, habit 1.0, DoD 100 %,
calendar factor 0 and a 10-year horizon (3650 days), the per-day degradation
is exactly 0.01, so day 2000 has SoH exactly 80 — it "fell at" the
threshold — yet the recorded crossing for 80 is day 2001 (the first day
strictly below), not day 2000: a day whose SoH equals the threshold exactly
is not recorded as the crossing. -/
theorem C4_exact_hit_not_recorded :
    (simulate_battery_soh 3650 14 25 1 100 0 4000).SoH.getD 2000 0 = 80 ∧
    (simulate_battery_soh 3650 14 25 1 100 0 4000).th80 =
      some ((2001 : ℝ) / 365) ∧
    ((2001 : ℝ) / 365) ≠ ((2000 : ℝ) / 365) := by
  have hdeg := degrade_amount_ex3
  have hpos : ∀ i : ℕ, 1 ≤ i → i ≤ 3650 →
      0 < (100 : ℝ) - i * degrade_amount 14 25 1 100 0 := by
    intro i h1 h2
    rw [hdeg]
    have hile : (i : ℝ) ≤ 3650 := by exact_mod_cast h2
    nlinarith
  have hL : (simLoop (degrade_amount 14 25 1 100 0) 3650 1 100 none none).SoH.length
      = 3650 := simLoop_len_eq (degrade_amount 14 25 1 100 0) 3650 1 100 none none hpos
  have hlen := simulate_SoH_length 3650 14 25 1 100 0 4000
  refine ⟨?_, ?_, by norm_num⟩
  · rw [simulate_SoH_getD 3650 14 25 1 100 0 4000 2000 (by omega), hdeg,
      show (100 : ℝ) - ((2000 : ℕ) : ℝ) * 0.01 = 80 by push_cast; norm_num]
    exact max_eq_left (by norm_num)
  · have hlt1 : (simulate_battery_soh 3650 14 25 1 100 0 4000).SoH.getD 2001 0 < 80 := by
      rw [simulate_SoH_getD 3650 14 25 1 100 0 4000 2001 (by omega), hdeg]
      refine max_lt ?_ (by norm_num)
      push_cast
      norm_num
    have hmin1 : ∀ j : ℕ, j < 2001 →
        (80 : ℝ) ≤ (simulate_battery_soh 3650 14 25 1 100 0 4000).SoH.getD j 0 := by
      intro j hj
      rw [simulate_SoH_getD 3650 14 25 1 100 0 4000 j (by omega), hdeg]
      have hjle : (j : ℝ) ≤ 2000 := by
        have hj2 : j ≤ 2000 := by omega
        exact_mod_cast hj2
      have h80 : (80 : ℝ) ≤ 100 - (j : ℝ) * 0.01 := by nlinarith
      exact le_trans h80 (le_max_left _ _)
    have h2001 := track_eq_some_of_first_below 3650 14 25 1 100 0 4000 80
      (by norm_num) (by norm_num) 2001 (by omega) hlt1 hmin1
    rw [simulate_th80_def, simLoop_th80_eq_track, h2001]
    congr 1

/-- C4 (amended): for each threshold t ∈ {80, 60}, `threshold_crossings`
maps t to the first simulated day whose stored SoH is strictly below t,
expressed as day/365; a day on which the SoH equals t exactly does not by
itself trigger the record. -/
theorem C4_first_strictly_below (days : ℕ) (c t h dod caf cap : ℝ) :
    (∀ dday : ℕ,
      dday < (simulate_battery_soh days c t h dod caf cap).SoH.length →
      (simulate_battery_soh days c t h dod caf cap).SoH.getD dday 0 < 80 →
      (∀ j : ℕ, j < dday →
        80 ≤ (simulate_battery_soh days c t h dod caf cap).SoH.getD j 0) →
      (simulate_battery_soh days c t h dod caf cap).th80 =
        some ((dday : ℝ) / 365)) ∧
    (∀ dday : ℕ,
      dday < (simulate_battery_soh days c t h dod caf cap).SoH.length →
      (simulate_battery_soh days c t h dod caf cap).SoH.getD dday 0 < 60 →
      (∀ j : ℕ, j < dday →
        60 ≤ (simulate_battery_soh days c t h dod caf cap).SoH.getD j 0) →
      (simulate_battery_soh days c t h dod caf cap).th60 =
        some ((dday : ℝ) / 365)) := by
  constructor
  · intro dday hd hlt hmin
    rw [simulate_th80_def, simLoop_th80_eq_track]
    exact track_eq_some_of_first_below days c t h dod caf cap 80 (by norm_num)
      (by norm_num) dday hd hlt hmin
  · intro dday hd hlt hmin
    rw [simulate_th60_def, simLoop_th60_eq_track]
    exact track_eq_some_of_first_below days c t h dod caf cap 60 (by norm_num)
      (by norm_num) dday hd hlt hmin

theorem C4_first_strictly_below_witness :
    (simulate_battery_soh 1 140000 25 1 100 0 4000).th80 =
      some (((1 : ℕ) : ℝ) / 365) :=
  (C4_first_strictly_below 1 140000 25 1 100 0 4000).1 1
    (by rw [example_run_len]; omega)
    (by rw [example_run_soh1]; norm_num)
    (fun j hj => by
      have hj0 : j = 0 := by omega
      subst hj0
      rw [example_run_soh0]
      norm_num)

theorem closed_le_of_degrade_le {d1 d2 : ℝ} (hle : d1 ≤ d2) (i : ℕ) :
    max (100 - (i : ℝ) * d2) 0 ≤ max (100 - (i : ℝ) * d1) 0 := by
  have h1 : (i : ℝ) * d1 ≤ (i : ℝ) * d2 :=
    mul_le_mul_of_nonneg_left hle (Nat.cast_nonneg i)
  exact max_le_max (by linarith) le_rfl

theorem closed_lt_of_degrade_lt {d1 d2 : ℝ} (hlt : d1 < d2) (i : ℕ) (hi : 1 ≤ i)
    (hpos : 0 < max (100 - (i : ℝ) * d2) 0) :
    max (100 - (i : ℝ) * d2) 0 < max (100 - (i : ℝ) * d1) 0 := by
  have h0 : 0 < 100 - (i : ℝ) * d2 := by
    rcases lt_max_iff.mp hpos with h2 | h2
    · exact h2
    · exact absurd h2 (lt_irrefl 0)
  have hi1 : (1 : ℝ) ≤ (i : ℝ) := by exact_mod_cast hi
  have h1 : (i : ℝ) * d1 < (i : ℝ) * d2 :=
    mul_lt_mul_of_pos_left hlt (by linarith)
  calc max (100 - (i : ℝ) * d2) 0 = 100 - (i : ℝ) * d2 := max_eq_left h0.le
    _ < 100 - (i : ℝ) * d1 := by linarith
    _ ≤ max (100 - (i : ℝ) * d1) 0 := le_max_left _ _

theorem degrade_lt_of_cycles_lt (c1 c2 t h dod caf : ℝ) (hdod : 0 < dod)
    (hh : 0 < h) (hcc : c1 < c2) :
    degrade_amount c1 t h dod caf < degrade_amount c2 t h dod caf := by
  have htf := temp_factor_pos t
  have hkey : 0 < (c2 - c1) * (0.005 * (dod / 100) * h * temp_factor t) := by
    apply mul_pos (by linarith)
    exact mul_pos (mul_pos (mul_pos (by norm_num) (div_pos hdod (by norm_num))) hh)
      htf
  unfold degrade_amount
  have e : c2 / 7 * 0.005 * (dod / 100) * h * temp_factor t -
      c1 / 7 * 0.005 * (dod / 100) * h * temp_factor t =
      (c2 - c1) * (0.005 * (dod / 100) * h * temp_factor t) / 7 := by ring
  linarith

theorem degrade_lt_of_cal_lt (c t h dod caf1 caf2 : ℝ) (hcf : caf1 < caf2) :
    degrade_amount c t h dod caf1 < degrade_amount c t h dod caf2 := by
  unfold degrade_amount
  have h1 : (0.00005 : ℝ) * caf1 < 0.00005 * caf2 :=
    mul_lt_mul_of_pos_left hcf (by norm_num)
  linarith

/-- C8: with positive depth of discharge and habit factor, strictly
decreasing the weekly charge cycles strictly decreases the constant per-day
degradation, and so does strictly decreasing the calendar aging factor; as a
consequence, at every day index present in the larger-parameter run, the run
with the decreased parameter has pointwise greater-or-equal SoH, and
strictly greater from day 1 on while the larger-parameter run is still
above 0. -/
theorem C8_monotone_sensitivity (days : ℕ) (c c2 t h dod caf caf2 cap : ℝ)
    (hdod : 0 < dod) (hh : 0 < h) (hcc : c2 < c) (hcf : caf2 < caf) :
    degrade_amount c2 t h dod caf < degrade_amount c t h dod caf ∧
    degrade_amount c t h dod caf2 < degrade_amount c t h dod caf ∧
    (∀ i : ℕ, i < (simulate_battery_soh days c t h dod caf cap).SoH.length →
      i < (simulate_battery_soh days c2 t h dod caf cap).SoH.length ∧
      (simulate_battery_soh days c t h dod caf cap).SoH.getD i 0 ≤
        (simulate_battery_soh days c2 t h dod caf cap).SoH.getD i 0) ∧
    (∀ i : ℕ, 1 ≤ i →
      i < (simulate_battery_soh days c t h dod caf cap).SoH.length →
      0 < (simulate_battery_soh days c t h dod caf cap).SoH.getD i 0 →
      (simulate_battery_soh days c t h dod caf cap).SoH.getD i 0 <
        (simulate_battery_soh days c2 t h dod caf cap).SoH.getD i 0) ∧
    (∀ i : ℕ, i < (simulate_battery_soh days c t h dod caf cap).SoH.length →
      i < (simulate_battery_soh days c t h dod caf2 cap).SoH.length ∧
      (simulate_battery_soh days c t h dod caf cap).SoH.getD i 0 ≤
        (simulate_battery_soh days c t h dod caf2 cap).SoH.getD i 0) ∧
    (∀ i : ℕ, 1 ≤ i →
      i < (simulate_battery_soh days c t h dod caf cap).SoH.length →
      0 < (simulate_battery_soh days c t h dod caf cap).SoH.getD i 0 →
      (simulate_battery_soh days c t h dod caf cap).SoH.getD i 0 <
        (simulate_battery_soh days c t h dod caf2 cap).SoH.getD i 0) := by
  have hd1 : degrade_amount c2 t h dod caf < degrade_amount c t h dod caf :=
    degrade_lt_of_cycles_lt c2 c t h dod caf hdod hh hcc
  have hd2 : degrade_amount c t h dod caf2 < degrade_amount c t h dod caf :=
    degrade_lt_of_cal_lt c t h dod caf2 caf hcf
  have hlen0 := simulate_SoH_length days c t h dod caf cap
  have hlen1 := simulate_SoH_length days c2 t h dod caf cap
  have hlen2 := simulate_SoH_length days c t h dod caf2 cap
  have hm1 := simLoop_len_mono (degrade_amount c2 t h dod caf)
    (degrade_amount c t h dod caf) hd1.le days 1 1 100 none none none none
  have hm2 := simLoop_len_mono (degrade_amount c t h dod caf2)
    (degrade_amount c t h dod caf) hd2.le days 1 1 100 none none none none
  refine ⟨hd1, hd2, ?_, ?_, ?_, ?_⟩
  · intro i hi
    have hi2 : i < (simulate_battery_soh days c2 t h dod caf cap).SoH.length := by
      omega
    refine ⟨hi2, ?_⟩
    rw [simulate_SoH_getD days c t h dod caf cap i hi,
      simulate_SoH_getD days c2 t h dod caf cap i hi2]
    exact closed_le_of_degrade_le hd1.le i
  · intro i hi1 hi hpos
    have hi2 : i < (simulate_battery_soh days c2 t h dod caf cap).SoH.length := by
      omega
    rw [simulate_SoH_getD days c t h dod caf cap i hi] at hpos ⊢
    rw [simulate_SoH_getD days c2 t h dod caf cap i hi2]
    exact closed_lt_of_degrade_lt hd1 i hi1 hpos
  · intro i hi
    have hi2 : i < (simulate_battery_soh days c t h dod caf2 cap).SoH.length := by
      omega
    refine ⟨hi2, ?_⟩
    rw [simulate_SoH_getD days c t h dod caf cap i hi,
      simulate_SoH_getD days c t h dod caf2 cap i hi2]
    exact closed_le_of_degrade_le hd2.le i
  · intro i hi1 hi hpos
    have hi2 : i < (simulate_battery_soh days c t h dod caf2 cap).SoH.length := by
      omega
    rw [simulate_SoH_getD days c t h dod caf cap i hi] at hpos ⊢
    rw [simulate_SoH_getD days c t h dod caf2 cap i hi2]
    exact closed_lt_of_degrade_lt hd2 i hi1 hpos

theorem C8_monotone_sensitivity_witness :
    degrade_amount 3 25 1 80 0.2 < degrade_amount 7 25 1 80 0.2 ∧
    degrade_amount 7 25 1 80 0.1 < degrade_amount 7 25 1 80 0.2 ∧
    (∀ i : ℕ, i < (simulate_battery_soh 3 7 25 1 80 0.2 4000).SoH.length →
      i < (simulate_battery_soh 3 3 25 1 80 0.2 4000).SoH.length ∧
      (simulate_battery_soh 3 7 25 1 80 0.2 4000).SoH.getD i 0 ≤
        (simulate_battery_soh 3 3 25 1 80 0.2 4000).SoH.getD i 0) ∧
    (∀ i : ℕ, 1 ≤ i →
      i < (simulate_battery_soh 3 7 25 1 80 0.2 4000).SoH.length →
      0 < (simulate_battery_soh 3 7 25 1 80 0.2 4000).SoH.getD i 0 →
      (simulate_battery_soh 3 7 25 1 80 0.2 4000).SoH.getD i 0 <
        (simulate_battery_soh 3 3 25 1 80 0.2 4000).SoH.getD i 0) ∧
    (∀ i : ℕ, i < (simulate_battery_soh 3 7 25 1 80 0.2 4000).SoH.length →
      i < (simulate_battery_soh 3 7 25 1 80 0.1 4000).SoH.length ∧
      (simulate_battery_soh 3 7 25 1 80 0.2 4000).SoH.getD i 0 ≤
        (simulate_battery_soh 3 7 25 1 80 0.1 4000).SoH.getD i 0) ∧
    (∀ i : ℕ, 1 ≤ i →
      i < (simulate_battery_soh 3 7 25 1 80 0.2 4000).SoH.length →
      0 < (simulate_battery_soh 3 7 25 1 80 0.2 4000).SoH.getD i 0 →
      (simulate_battery_soh 3 7 25 1 80 0.2 4000).SoH.getD i 0 <
        (simulate_battery_soh 3 7 25 1 80 0.1 4000).SoH.getD i 0) :=
  C8_monotone_sensitivity 3 7 3 25 1 80 0.2 0.1 4000 (by norm_num) (by norm_num)
    (by norm_num) (by norm_num)

/-- C9: the temperature factor used each day is exp((T - 25)/15); it equals
exactly 1 at 25 °C, raising the temperature from 25 to 40 multiplies it by
exp(1), it is strictly increasing in temperature, and (for a positive
cycle-aging product) the 25 → 40 rise strictly increases the per-day
degradation with all other parameters identical. -/
theorem C9_temperature_factor :
    (∀ t : ℝ, temp_factor t = Real.exp ((t - 25) / 15)) ∧
    temp_factor 25 = 1 ∧
    temp_factor 40 = Real.exp 1 * temp_factor 25 ∧
    StrictMono temp_factor ∧
    ∀ c h dod caf : ℝ, 0 < c → 0 < h → 0 < dod →
      degrade_amount c 25 h dod caf < degrade_amount c 40 h dod caf := by
  have h25 : temp_factor 25 = 1 := by
    unfold temp_factor
    norm_num
  have hmono : StrictMono temp_factor := by
    intro a b hab
    unfold temp_factor
    rw [Real.exp_lt_exp]
    linarith
  refine ⟨fun t => rfl, h25, ?_, hmono, ?_⟩
  · rw [h25]
    unfold temp_factor
    norm_num
  · intro c h dod caf hc hh hdod
    have htlt : temp_factor 25 < temp_factor 40 := hmono (by norm_num)
    have hcyc : 0 < c / 7 * 0.005 * (dod / 100) * h :=
      mul_pos (mul_pos (mul_pos (div_pos hc (by norm_num)) (by norm_num))
        (div_pos hdod (by norm_num))) hh
    have h1 : c / 7 * 0.005 * (dod / 100) * h * temp_factor 25 <
        c / 7 * 0.005 * (dod / 100) * h * temp_factor 40 :=
      mul_lt_mul_of_pos_left htlt hcyc
    unfold degrade_amount
    linarith

theorem C9_temperature_factor_witness :
    degrade_amount 7 25 1 80 0.2 < degrade_amount 7 40 1 80 0.2 :=
  C9_temperature_factor.2.2.2.2 7 1 80 0.2 (by norm_num) (by norm_num) (by norm_num)

/-- C8 (counterexample to the literal strictness clause): at day index 0 the
larger-parameter run is above 0 (its SoH is 100), yet the two runs' SoH
values are equal — both sequences are seeded with exactly 100 before any
degradation is applied — so "strictly greater at every day index while the
larger-parameter run is above 0" fails at index 0.  Strictness does hold
from day index 1 on (see the amended theorem). -/
theorem C8_strictness_fails_at_day0 :
    0 < (simulate_battery_soh 3 7 25 1 80 0.2 4000).SoH.getD 0 0 ∧
    ¬((simulate_battery_soh 3 7 25 1 80 0.2 4000).SoH.getD 0 0 <
      (simulate_battery_soh 3 3 25 1 80 0.2 4000).SoH.getD 0 0) := by
  have h1 : (simulate_battery_soh 3 7 25 1 80 0.2 4000).SoH.getD 0 0 = 100 := by
    rw [simulate_SoH_def]
    simp
  have h2 : (simulate_battery_soh 3 3 25 1 80 0.2 4000).SoH.getD 0 0 = 100 := by
    rw [simulate_SoH_def]
    simp
  rw [h1, h2]
  norm_num
